import Mathlib

set_option maxHeartbeats 1000000

/-!
# GitHub Code Analyzer — verification of the specification against the code

This file gives a shallow embedding of the orchestration layer of the
GitHub Code Analyzer application (the `App` controller in its final
revision, `src/unnamed/part_004`, together with the two service clients
`src/services/githubService.ts` / `src/unnamed/part_003` and the
presentation helpers `src/components/FileTree.tsx` and
`src/components/CodeViewer.tsx`) and proves or refutes the frozen claims
about it.

Conventions of the embedding:
* TypeScript `string | null` / optional fields become `Option String`.
* JavaScript truthiness tests on strings (`if (x)`) become `jsTruthy`,
  which is false for `null`/`undefined` and for the empty string.
* Asynchronous functions are split at their `await` points into a
  synchronous start step and a completion step, with network results
  supplied by an explicit `Except` argument; a boolean records whether a
  network request was issued.
* React `useState` setters become functional record updates on `AppState`.
-/

namespace GCA

/-- JavaScript truthiness of a nullable string: `null`/`undefined` and the
empty string are falsy, every other string is truthy. -/
def jsTruthy : Option String → Bool
  | none => false
  | some s => s ≠ ""

/-- JavaScript `a || b` for strings where `a` is known to be a string:
returns `b` exactly when `a` is the empty string. -/
def jsOr (s d : String) : String := if s = "" then d else s

/-- Whether `pat` begins the character list `l`. -/
def charsStartWith : List Char → List Char → Bool
  | [], _ => true
  | _ :: _, [] => false
  | p :: ps, c :: cs => p = c && charsStartWith ps cs

/-- Whether `pat` occurs contiguously inside `l`. -/
def charsContain (pat : List Char) : List Char → Bool
  | [] => charsStartWith pat []
  | c :: cs => charsStartWith pat (c :: cs) || charsContain pat cs

/-- JavaScript `hay.includes(pat)`: substring containment. -/
def jsIncludes (hay pat : String) : Bool := charsContain pat.data hay.data

/-- JavaScript `s.split(sep)` on character lists: splits at every
occurrence of `sep`; the empty string yields `[""]` and a trailing
separator yields a trailing empty group, exactly as in JavaScript. -/
def splitChars (sep : Char) : List Char → List (List Char)
  | [] => [[]]
  | c :: rest =>
      match splitChars sep rest with
      | [] => [[]]
      | grp :: grps =>
          if c = sep then [] :: grp :: grps else (c :: grp) :: grps

/-- JavaScript `parts.join(sep)`. -/
def joinWith (sep : String) : List String → String
  | [] => ""
  | [s] => s
  | s :: rest => s ++ sep ++ joinWith sep rest

/-- JavaScript `s.toLowerCase()` (ASCII range, which covers every key of
the extension table). -/
def lowerString (s : String) : String := String.mk (s.data.map Char.toLower)

/-- `ChatMessage.role` values: `'user' | 'ai'` (src/unnamed/part_004, types). -/
inductive Role where
  | user
  | ai
  deriving DecidableEq, Repr

/-- `ChatMessage` from `types.ts`: `{ role: 'user' | 'ai'; text: string }`. -/
structure ChatMessage where
  role : Role
  text : String
  deriving DecidableEq, Repr

/-- `ActiveTab` values of the final revision: `'codeViewer' | 'aiAssistant'`. -/
inductive Tab where
  | codeViewer
  | aiAssistant
  deriving DecidableEq, Repr

/-- `RepoFile` from `types.ts`:
`{ name, path, type: 'file' | 'dir', url?, sha, children? }`.
A `file` carries an optional raw-content address, a `dir` carries its
ordered children. -/
inductive RepoFile where
  | file (name path sha : String) (url : Option String)
  | dir (name path sha : String) (children : List RepoFile)

/-- The `path` field of a `RepoFile`. -/
def RepoFile.path : RepoFile → String
  | .file _ p _ _ => p
  | .dir _ p _ _ => p

/-- The `name` field of a `RepoFile`. -/
def RepoFile.name : RepoFile → String
  | .file n _ _ _ => n
  | .dir n _ _ _ => n

/-- The optional `url` field of a `RepoFile` (`undefined` on directories). -/
def RepoFile.url : RepoFile → Option String
  | .file _ _ _ u => u
  | .dir _ _ _ _ => none

/-- Whether a `RepoFile` has `type === 'file'`. -/
def RepoFile.isFile : RepoFile → Bool
  | .file _ _ _ _ => true
  | .dir _ _ _ _ => false

/-- The session state owned by the `App` component in the final revision
(src/unnamed/part_004 lines 17-33): the `useState` cells that the claims
are about.  `githubPat` and the persisted-store mirror are included for
completeness; modal and tab state take part in the transitions. -/
structure AppState where
  repoUrl : String
  githubPat : Option String
  repoOwner : String
  repoName : String
  repoFiles : List RepoFile
  selectedFilePath : Option String
  currentFileContent : Option String
  isLoading : Bool
  errorMessage : Option String
  chatMessages : List ChatMessage
  isAiThinking : Bool
  isApiKeySelected : Bool
  activeTab : Tab
  showRepoInputModal : Bool

/-- `findFileRecursive` from src/unnamed/part_004 lines 146-157: scans the
list in order; a node matches when its `path` equals the request and its
`type` is `'file'`; directory children are searched depth-first before the
remaining siblings. -/
def findFileRecursive : List RepoFile → String → Option RepoFile
  | [], _ => none
  | .file n p sh u :: rest, path =>
      if p = path then some (.file n p sh u) else findFileRecursive rest path
  | .dir _ _ _ children :: rest, path =>
      match findFileRecursive children path with
      | some found => some found
      | none => findFileRecursive rest path

/-- The error text set when a path cannot be resolved to a fetchable file
(src/unnamed/part_004 line 162). -/
def fileNotFoundMsg (filePath : String) : String :=
  "File '" ++ filePath ++ "' not found or URL is missing."

/-- The fallback error text of a failed content fetch
(src/unnamed/part_004 line 175). -/
def fileFetchFailMsg (filePath : String) : String :=
  "Failed to fetch content for " ++ filePath ++ "."

/-- `fetchFileContent` from src/unnamed/part_004 lines 141-181.  The
synchronous prefix sets `isLoading`, clears `errorMessage` and
`currentFileContent`; the guard (file not found, or falsy `url`) reports
`fileNotFoundMsg` and returns without a network call; otherwise the raw
fetch is issued and its outcome `res` is applied: on success the content,
selection and tab are set, on failure the error is recorded and both the
content and the selection are cleared.  The boolean of the result is
`true` exactly when a network request was issued. -/
def fetchFileContent (st : AppState) (filePath : String)
    (res : Except String String) : AppState × Bool :=
  let st1 := { st with isLoading := true, errorMessage := none,
                       currentFileContent := none }
  match findFileRecursive st.repoFiles filePath with
  | none =>
      ({ st1 with errorMessage := some (fileNotFoundMsg filePath),
                  isLoading := false }, false)
  | some f =>
      if jsTruthy f.url = false then
        ({ st1 with errorMessage := some (fileNotFoundMsg filePath),
                    isLoading := false }, false)
      else
        match res with
        | .ok content =>
            ({ st1 with currentFileContent := some content,
                        selectedFilePath := some filePath,
                        activeTab := .codeViewer,
                        errorMessage := none,
                        isLoading := false }, true)
        | .error e =>
            ({ st1 with errorMessage := some (jsOr e (fileFetchFailMsg filePath)),
                        currentFileContent := none,
                        selectedFilePath := none,
                        isLoading := false }, true)

/-- `handleFileClick` from src/components/FileTree.tsx lines 27-38, as a
function of the clicked node, the item's open flag and the relevant
context values.  Result: whether `fetchFileContent` was invoked, the new
open flag, and the value `selectedFilePath` holds when the fetch starts
(the click sets it synchronously before awaiting the fetch). -/
def handleFileClick (f : RepoFile) (isOpen : Bool)
    (selectedFilePath : Option String) (currentFileContent : Option String) :
    Bool × Bool × Option String :=
  if f.isFile then
    if selectedFilePath = some f.path ∧ jsTruthy currentFileContent then
      (false, isOpen, selectedFilePath)
    else
      (true, isOpen, some f.path)
  else
    (false, !isOpen, selectedFilePath)

/-! ## Chat streaming (src/unnamed/part_004 `sendMessageToAI`, lines 183-228) -/

/-- One `setChatMessages` functional update of the streaming loop
(src/unnamed/part_004 lines 202-213): if the last message has role `ai`
its text is replaced by the accumulated response, otherwise a fresh ai
message is pushed. -/
def applyChunkUpdate (msgs : List ChatMessage) (full : String) : List ChatMessage :=
  match msgs.getLast? with
  | some m =>
      if m.role = .ai then msgs.dropLast ++ [{ m with text := full }]
      else msgs ++ [⟨.ai, full⟩]
  | none => msgs ++ [⟨.ai, full⟩]

/-- The `for await` loop of `sendMessageToAI`: folds the chunks of the
stream in arrival order, extending `fullResponseText` and applying the
chunk update after each chunk.  Returns the message list and the
accumulated text. -/
def streamFold (msgs : List ChatMessage) (full : String) :
    List String → List ChatMessage × String
  | [] => (msgs, full)
  | c :: rest => streamFold (applyChunkUpdate msgs (full ++ c)) (full ++ c) rest

/-- The chat history during a turn of `sendMessageToAI`: the user message
and the empty ai placeholder are appended (lines 188-193), then the
chunks received so far are folded in. -/
def chatAfter (history : List ChatMessage) (q : String)
    (chunks : List String) : List ChatMessage :=
  (streamFold (history ++ [⟨.user, q⟩, ⟨.ai, ""⟩]) "" chunks).1

/-- Concatenation of stream chunks in arrival order. -/
def concatChunks : List String → String
  | [] => ""
  | c :: rest => c ++ concatChunks rest

/-! ## Assistant failure handling (part_003 and part_004) -/

/-- The invalid-credential error text thrown by the streaming
`analyzeCodeWithGemini` (src/unnamed/part_003 line 137). -/
def invalidKeyThrownMsg : String :=
  "API Key selection failed or is invalid. Please ensure you have selected a valid paid API key from a Google Cloud Project."

/-- The substring `sendMessageToAI` tests for (src/unnamed/part_004 line 218). -/
def invalidKeyNeedle : String := "API Key selection failed or is invalid."

/-- The message shown when the credential gate is re-closed
(src/unnamed/part_004 line 220). -/
def reselectKeyMsg : String :=
  "Invalid API Key. Please select a valid key from a paid GCP project."

/-- The backend classification of `analyzeCodeWithGemini`
(src/unnamed/part_003 lines 133-140): an underlying error whose message
contains one of the two credential markers is re-thrown as
`invalidKeyThrownMsg`; every other error becomes a transport message. -/
def geminiIsCredentialError (backendMsg : String) : Bool :=
  jsIncludes backendMsg "Requested entity was not found." ||
    jsIncludes backendMsg "API key not valid"

/-- The error message `analyzeCodeWithGemini` throws for a backend error
with message `backendMsg` (src/unnamed/part_003 lines 133-140). -/
def geminiThrown (backendMsg : String) : String :=
  if geminiIsCredentialError backendMsg then invalidKeyThrownMsg
  else "Failed to get response from AI: " ++ jsOr backendMsg "Unknown error"

/-- The `catch`/`finally` of `sendMessageToAI`
(src/unnamed/part_004 lines 215-227) applied to a thrown message:
`errorMessage` is set (with a fallback for an empty message); if the
message contains `invalidKeyNeedle` the credential gate is revoked and
the reselect instruction is shown; `isAiThinking` is always reset. -/
def handleAiError (st : AppState) (thrown : String) : AppState :=
  let st1 := { st with
    errorMessage := some (jsOr thrown "Failed to get AI response. Please try again.") }
  let st2 :=
    if jsIncludes thrown invalidKeyNeedle then
      { st1 with isApiKeySelected := false, errorMessage := some reselectKeyMsg }
    else st1
  { st2 with isAiThinking := false }

/-! ## Language tag selection (src/components/CodeViewer.tsx lines 8-51) -/

/-- The extension examined by `getLanguage`:
`filePath.split('.').pop()?.toLowerCase()` — the last group of the dot
split, lowercased (`split` never returns an empty array, so `pop` always
yields a string). -/
def finalExtension (filePath : String) : String :=
  lowerString (((splitChars '.' filePath.data).map String.mk).getLastD "")

/-- The `switch` of `getLanguage` on the lowercased final extension. -/
def languageOfExtension (ext : String) : String :=
  match ext with
  | "js" => "javascript"
  | "jsx" => "javascript"
  | "ts" => "typescript"
  | "tsx" => "typescript"
  | "css" => "css"
  | "html" => "html"
  | "htm" => "html"
  | "json" => "json"
  | "md" => "markdown"
  | "markdown" => "markdown"
  | "py" => "python"
  | "java" => "java"
  | "go" => "go"
  | "php" => "php"
  | "rb" => "ruby"
  | "sh" => "bash"
  | "xml" => "xml"
  | "yaml" => "yaml"
  | "yml" => "yaml"
  | "scss" => "scss"
  | "less" => "less"
  | _ => "textile"

/-- `getLanguage` from src/components/CodeViewer.tsx lines 8-51. -/
def getLanguage (filePath : String) : String :=
  languageOfExtension (finalExtension filePath)

/-- The extension table exactly as the specification lists it (§6
Outputs), with the spec's fallback tag `plain-text`; used to state the
claim that `getLanguage` realizes this exact mapping. -/
def specLanguageTable : List (String × String) :=
  [("js", "javascript"), ("jsx", "javascript"),
   ("ts", "typescript"), ("tsx", "typescript"),
   ("css", "css"),
   ("html", "html"), ("htm", "html"),
   ("json", "json"),
   ("md", "markdown"),
   ("py", "python"),
   ("java", "java"),
   ("go", "go"),
   ("php", "php"),
   ("rb", "ruby"),
   ("sh", "bash"),
   ("xml", "xml"),
   ("yaml", "yaml"), ("yml", "yaml"),
   ("scss", "scss"), ("less", "less")]

/-- The mapping claimed by the specification: the listed table, every
other extension mapped to `plain-text`. -/
def specLanguage (filePath : String) : String :=
  match (specLanguageTable.lookup (finalExtension filePath)) with
  | some lang => lang
  | none => "plain-text"

/-- The mapping the code actually realizes, written as a table lookup so
that the correspondence theorem is not a syntactic restatement of
`languageOfExtension`: the spec's table extended with the `markdown`
extension, with the code's fallback tag `textile`. -/
def codeLanguageTable : List (String × String) :=
  specLanguageTable ++ [("markdown", "markdown")]

/-- The amended mapping: `codeLanguageTable` with fallback `textile`. -/
def amendedLanguage (filePath : String) : String :=
  match (codeLanguageTable.lookup (finalExtension filePath)) with
  | some lang => lang
  | none => "textile"

/-! ## Repository tree construction (src/services/githubService.ts lines 55-117)

The service receives the flat recursive listing `data.tree` of
`{path, type: 'blob' | 'tree', sha}` records, creates a synthetic root
for the repository, and attaches every record to the node found by looking
its parent path up in the running `dirMap`; records whose parent cannot
be found are skipped.  JavaScript builds a graph of mutable objects; the
embedding uses an arena (`nodes`, indexed by allocation order) with
`children` as lists of arena indices, which models object identity
exactly: `dirMap.get(p)` returning an object reference becomes `dlookup`
returning an index, and `parentDir.children.push(x)` becomes appending
the fresh index to that node's `children`. -/

/-- GitHub tree entry types `'blob' | 'tree'`. -/
inductive GitKind where
  | blob
  | tree
  deriving DecidableEq, Repr

/-- A record of the flat listing returned by the trees API. -/
structure TreeItem where
  path : String
  type : GitKind
  sha : String
  deriving DecidableEq, Repr

/-- `item.path.split('/')` of the service. -/
def pathParts (p : String) : List String :=
  (splitChars '/' p.data).map String.mk

/-- `pathParts[pathParts.length - 1]` of the service. -/
def itemName (p : String) : String := (pathParts p).getLastD ""

/-- `pathParts.slice(0, -1).join('/')` of the service. -/
def parentPath (p : String) : String :=
  joinWith "/" (pathParts p).dropLast

/-- Node kinds of the built tree: `'file' | 'dir'`. -/
inductive FileKind where
  | file
  | dir
  deriving DecidableEq, Repr

/-- An arena node of the built tree: the `RepoFile` object fields plus
`children` as arena indices. -/
structure Node where
  name : String
  path : String
  sha : String
  kind : FileKind
  url : Option String
  children : List Nat
  deriving DecidableEq, Repr

/-- The construction state: the arena and the `dirMap`.  `Map.set`
overwrites, which the association list models by consing the new binding
in front of any older one. -/
structure BuildState where
  nodes : List Node
  dirMap : List (String × Nat)
  deriving DecidableEq, Repr

/-- `dirMap.get(key)`: the most recently set binding of `key`. -/
def dlookup : List (String × Nat) → String → Option Nat
  | [], _ => none
  | (k, v) :: rest, key => if k = key then some v else dlookup rest key

/-- Replace the element at index `i` by `f` of it (identity out of range). -/
def modifyAt {α : Type} : List α → Nat → (α → α) → List α
  | [], _, _ => []
  | x :: xs, 0, f => f x :: xs
  | x :: xs, n + 1, f => x :: modifyAt xs n f

/-- The `contentUrl` computed for a file entry (githubService line 109):
`${GITHUB_RAW_CONTENT_BASE_URL}/${owner}/${repo}/${branch}/${item.path}`.
The base constant lives in `constants.ts` (not under src), so it is kept
as the parameter `rawBase`. -/
def rawUrl (rawBase owner repo branch path : String) : String :=
  rawBase ++ "/" ++ owner ++ "/" ++ repo ++ "/" ++ branch ++ "/" ++ path

/-- The loop body of `fetchRepoTree` (githubService lines 81-114) for one
listing record: resolve the parent in `dirMap`; if absent, `continue`
(state unchanged); a `tree` record allocates a directory node, registers
it in `dirMap` and appends it to the parent's children; a `blob` record
allocates a file node with its `contentUrl` and appends it to the
parent's children. -/
def stepBuild (rawBase owner repo branch : String) (st : BuildState)
    (it : TreeItem) : BuildState :=
  match dlookup st.dirMap (parentPath it.path) with
  | none => st
  | some p =>
      let n := st.nodes.length
      match it.type with
      | .tree =>
          let nd : Node := ⟨itemName it.path, it.path, it.sha, .dir, none, []⟩
          { nodes := modifyAt (st.nodes ++ [nd]) p
              (fun d => { d with children := d.children ++ [n] }),
            dirMap := (it.path, n) :: st.dirMap }
      | .blob =>
          let nd : Node := ⟨itemName it.path, it.path, it.sha, .file,
            some (rawUrl rawBase owner repo branch it.path), []⟩
          { nodes := modifyAt (st.nodes ++ [nd]) p
              (fun d => { d with children := d.children ++ [n] }),
            dirMap := st.dirMap }

/-- The initial state of the construction (githubService lines 66-78):
the synthetic root (named after the repository, path `""`, carrying the
tree sha) at index 0, registered in `dirMap` under `""`. -/
def buildInit (repo treeSha : String) : BuildState :=
  { nodes := [⟨repo, "", treeSha, .dir, none, []⟩], dirMap := [("", 0)] }

/-- The loop of `fetchRepoTree` over the listing. -/
def buildGo (rawBase owner repo branch : String) :
    BuildState → List TreeItem → BuildState
  | st, [] => st
  | st, it :: rest =>
      buildGo rawBase owner repo branch (stepBuild rawBase owner repo branch st it) rest

/-- The records of the listing that are not skipped: those whose parent
path is present in `dirMap` at the moment they are processed. -/
def keptGo (rawBase owner repo branch : String) :
    BuildState → List TreeItem → List TreeItem
  | _, [] => []
  | st, it :: rest =>
      if (dlookup st.dirMap (parentPath it.path)).isSome then
        it :: keptGo rawBase owner repo branch
          (stepBuild rawBase owner repo branch st it) rest
      else keptGo rawBase owner repo branch st rest

/-- Materialization of an arena node as the `RepoFile` object the service
returns.  In every state the construction reaches, a child's index
strictly exceeds its parent's, so recursion depth from node `i` is below
`nodes.length - i` and fuel `nodes.length` always suffices; the
out-of-fuel and dangling-index branches are never taken for such states
(the fuel-irrelevance lemma below makes this precise). -/
def matNode (nodes : List Node) : Nat → Nat → RepoFile
  | 0, _ => .file "" "" "" none
  | fuel + 1, i =>
      match nodes.get? i with
      | none => .file "" "" "" none
      | some nd =>
          match nd.kind with
          | .file => .file nd.name nd.path nd.sha nd.url
          | .dir => .dir nd.name nd.path nd.sha
              (nd.children.map (fun j => matNode nodes fuel j))

/-- `fetchRepoTree` (githubService lines 55-117) after the HTTP layer:
builds the hierarchy from the flat listing and returns the root's
children. -/
def fetchRepoTree (rawBase owner repo branch treeSha : String)
    (items : List TreeItem) : List RepoFile :=
  let st := buildGo rawBase owner repo branch (buildInit repo treeSha) items
  match st.nodes.get? 0 with
  | none => []
  | some root => root.children.map (fun j => matNode st.nodes st.nodes.length j)

/-- Depth-first traversal of a built tree, collecting every entry's path. -/
def allPathsList : List RepoFile → List String
  | [] => []
  | .file _ p _ _ :: rest => p :: allPathsList rest
  | .dir _ p _ children :: rest => p :: (allPathsList children ++ allPathsList rest)

/-- Boolean membership of a string in a list of strings. -/
def strMem (s : String) : List String → Bool
  | [] => false
  | k :: rest => k = s || strMem s rest

/-- The key set of a `dirMap`. -/
def keysOf (m : List (String × Nat)) : List String := m.map Prod.fst

/-- A listing is parent-before-child ordered when every record's parent
path is the root or was declared by an earlier `tree` record; `seen`
accumulates the directory paths available so far (initially the root
path `""`), mirroring the evolution of `dirMap`'s key set. -/
def groundedFrom (seen : List String) : List TreeItem → Bool
  | [] => true
  | it :: rest =>
      strMem (parentPath it.path) seen &&
        groundedFrom (if it.type = .tree then it.path :: seen else seen) rest

/-- The structural invariants every state of the construction satisfies:
the root exists; children indices point forward and into the arena;
every non-root node is some directory node's child; `dirMap` values name
directory nodes; file nodes are leaves. -/
structure ArenaWF (st : BuildState) : Prop where
  nonempty : 0 < st.nodes.length
  child_range : ∀ k nd, st.nodes.get? k = some nd →
    ∀ j ∈ nd.children, k < j ∧ j < st.nodes.length
  parent_exists : ∀ j, 1 ≤ j → j < st.nodes.length →
    ∃ k nd, st.nodes.get? k = some nd ∧ nd.kind = FileKind.dir ∧ j ∈ nd.children
  map_dir : ∀ p v, dlookup st.dirMap p = some v →
    ∃ nd, st.nodes.get? v = some nd ∧ nd.kind = FileKind.dir
  file_leaf : ∀ k nd, st.nodes.get? k = some nd →
    nd.kind = FileKind.file → nd.children = []

/-! ## Locator parsing (src/unnamed/part_004 lines 103-111)

The final revision matches the locator against

`/^https:\/\/github\.com\/([a-zA-Z0-9_-]+)\/([a-zA-Z0-9_.-]+?)(\.git)?(\/.*)?$/`

and uses groups 1 and 2 as owner and repository.  The embedding is the
deterministic parser this regex denotes under JavaScript backtracking
semantics, derived clause by clause:

* the literal head `https://github.com/` must begin the string;
* group 1 is greedy over a class that excludes `/`; since the regex then
  demands a literal `/`, backtracking a shorter owner would place a
  class character where `/` is required, so the match is exactly the
  maximal run, which must be non-empty and followed by `/`;
* group 2 is lazy (`+?`): the engine accepts the shortest non-empty run
  of repository characters after which the remainder of the pattern
  matches, extending one character at a time;
* the remainder `(\.git)?(\/.*)?$` matches a character list `cs` iff
  (`cs` starts with `.git` and the pattern after group 3 matches the
  rest) or that pattern matches `cs` itself (`tailMatch`); and
  `(\/.*)?$` matches iff `cs` is empty or `cs` is `/` followed only by
  characters `.` can match — `.` without the `s` flag excludes the four
  JavaScript line terminators, and any earlier stop of the greedy `.*`
  fails the `$` anchor (`tail2`). -/

/-- The owner class `[a-zA-Z0-9_-]`. -/
def isOwnerChar (c : Char) : Bool := c.isAlphanum || c = '_' || c = '-'

/-- The repository class `[a-zA-Z0-9_.-]`. -/
def isRepoChar (c : Char) : Bool :=
  c.isAlphanum || c = '_' || c = '.' || c = '-'

/-- JavaScript line terminators, which `.` does not match. -/
def isJsLineTerm (c : Char) : Bool :=
  c = '\n' || c = '\r' || c = ' ' || c = ' '

/-- `(\/.*)?$` at `cs`. -/
def tail2 : List Char → Bool
  | [] => true
  | c :: rest => c = '/' && rest.all (fun a => !isJsLineTerm a)

/-- `(\.git)?(\/.*)?$` at `cs`. -/
def tailMatch (cs : List Char) : Bool :=
  (charsStartWith ['.', 'g', 'i', 't'] cs && tail2 (cs.drop 4)) || tail2 cs

/-- The lazy group 2: after at least one repository character, the
shortest accepted run.  `acc` holds the characters consumed so far. -/
def repoScan (acc : List Char) : List Char → Option (List Char)
  | [] => none
  | c :: rest =>
      if isRepoChar c then
        if tailMatch rest then some (acc ++ [c])
        else repoScan (acc ++ [c]) rest
      else none

/-- Strip a literal pattern from the front of a character list. -/
def stripStart (pat : List Char) (l : List Char) : Option (List Char) :=
  match pat, l with
  | [], rest => some rest
  | _ :: _, [] => none
  | p :: ps, c :: cs => if p = c then stripStart ps cs else none

/-- The literal head of the accepted pattern. -/
def locatorHead : List Char := "https://github.com/".data

/-- Owner/repository extraction on character lists. -/
def extractChars (cs : List Char) : Option (List Char × List Char) :=
  match stripStart locatorHead cs with
  | none => none
  | some rest =>
      let owner := rest.takeWhile isOwnerChar
      match rest.dropWhile isOwnerChar with
      | [] => none
      | c :: rest2 =>
          if c = '/' then
            if owner.isEmpty then none
            else (repoScan [] rest2).map (fun repo => (owner, repo))
          else none

/-- Owner/repository extraction of `fetchRepo` as a function of the
locator string: `some (owner, repo)` on a regex match, `none` otherwise. -/
def extractOwnerRepo (url : String) : Option (String × String) :=
  (extractChars url.data).map (fun p => (String.mk p.1, String.mk p.2))

/-- The canonical locator `https://github.com/owner/repo`. -/
def canonicalLocator (owner repo : String) : String :=
  "https://github.com/" ++ owner ++ "/" ++ repo

/-- Whether `pat` ends the character list `l`. -/
def charsEndWith (pat l : List Char) : Bool :=
  charsStartWith pat.reverse l.reverse

/-- Strip one final `.git` from a character list when what remains is
non-empty. -/
def listStripGit (cs : List Char) : List Char :=
  if 4 < cs.length ∧ charsEndWith ['.', 'g', 'i', 't'] cs = true then
    cs.take (cs.length - 4)
  else cs

/-- Strip one final `.git` from a repository name when what remains is
non-empty; re-extraction from the canonical locator performs exactly this
normalization (the amended idempotence statement). -/
def stripDotGit (r : String) : String := String.mk (listStripGit r.data)

/-! ## Repository fetch orchestration (src/unnamed/part_004 lines 94-139)

`fetchRepo` is split at its `await` points: `fetchRepoStart` is the
synchronous part up to the first network call (prefix resets, locator
parsing, owner/name assignment — or the complete invalid-locator error
path, which throws before any network call), and `fetchRepoComplete` is
the resumption applying the network outcome (the tree on success, the
caught error otherwise).  The persisted key-value store mirror
(`localStorage`) is outside the session state and not modelled. -/

/-- The invalid-locator error text (src/unnamed/part_004 line 107). -/
def invalidUrlMsg : String :=
  "Invalid GitHub URL format. Please use 'https://github.com/owner/repo'."

/-- The fallback error text of a failed repository fetch
(src/unnamed/part_004 line 129). -/
def repoFetchFailMsg : String :=
  "Failed to fetch repository. Please check the URL and try again."

/-- The synchronous part of `fetchRepo`: state resets, locator parsing
and, on a match, the owner/name assignment.  Returns the parsed pair
when a network request is issued, `none` when the invalid-locator path
completed without network access. -/
def fetchRepoStart (st : AppState) (url : String) :
    AppState × Option (String × String) :=
  let st1 := { st with isLoading := true, errorMessage := none,
                       chatMessages := [], selectedFilePath := none,
                       currentFileContent := none, activeTab := .aiAssistant }
  match extractOwnerRepo url with
  | none =>
      ({ st1 with errorMessage := some invalidUrlMsg, repoFiles := [],
                  showRepoInputModal := true, isLoading := false }, none)
  | some (owner, repo) =>
      ({ st1 with repoOwner := owner, repoName := repo }, some (owner, repo))

/-- The resumption of `fetchRepo` after its network calls: on success the
tree replaces `repoFiles` and the modal closes; on failure the error is
recorded and the tree cleared; `isLoading` is reset either way. -/
def fetchRepoComplete (st : AppState) (res : Except String (List RepoFile)) :
    AppState :=
  match res with
  | .ok files =>
      { st with repoFiles := files, errorMessage := none,
                showRepoInputModal := false, isLoading := false }
  | .error e =>
      { st with errorMessage := some (jsOr e repoFetchFailMsg),
                repoFiles := [], showRepoInputModal := true,
                isLoading := false }

/-- An empty session, used to instantiate concrete scenarios. -/
def emptyState : AppState :=
  ⟨"", none, "", "", [], none, none, false, none, [], false, false,
   .aiAssistant, false⟩

/-- The two-record listing of the specification's round-trip property. -/
def exampleListing : List TreeItem :=
  [⟨"a", GitKind.tree, "sha-a"⟩, ⟨"a/b.txt", GitKind.blob, "sha-b"⟩]

/-- Tree returned for repository A of the supersession scenario. -/
def filesA : List RepoFile := [.file "fileA.txt" "fileA.txt" "shaA" (some "uA")]

/-- Tree returned for repository B of the supersession scenario. -/
def filesB : List RepoFile := [.file "fileB.txt" "fileB.txt" "shaB" (some "uB")]

/-- The supersession scenario of the specification run against the code:
`fetchRepo(A)` is issued, `fetchRepo(B)` is issued before A resolves,
B's network result arrives and is applied first, then A's stale result
arrives and is applied.  The code has no generation counter or abort, so
each completion applies unconditionally. -/
def staleRaceFinal : AppState :=
  fetchRepoComplete
    (fetchRepoComplete
      (fetchRepoStart
        (fetchRepoStart emptyState "https://github.com/alice/repoa").1
        "https://github.com/bob/repob").1
      (Except.ok filesB))
    (Except.ok filesA)

/-- A backend error message that is not one of the credential markers of
`analyzeCodeWithGemini` but happens to contain the substring the
controller dispatches on. -/
def adversarialBackendMsg : String := "API Key selection failed or is invalid."

/-- A session holding one loaded file, used to witness C5. -/
def sessionC5 : AppState :=
  ⟨"", none, "", "", [.file "a.txt" "a.txt" "s" (some "u")],
   some "a.txt", some "old", false, none, [], false, false,
   .aiAssistant, false⟩

/-- A session whose tree is a single (empty) directory, used to witness
C10. -/
def sessionC10 : AppState :=
  ⟨"", none, "", "", [.dir "src" "src" "s" []], none, none, false, none,
   [], false, false, .aiAssistant, false⟩

/-- `sessionC5` with the gate open, used for the C6 scenarios. -/
def sessionGateOpen : AppState :=
  ⟨"", none, "", "", [], none, none, false, none, [], false, true,
   .aiAssistant, false⟩

end GCA

namespace GCA

/-! ## Helper lemmas -/

theorem strBeqFalse (e k : String) (h : ¬ e = k) : (e == k) = false :=
  beq_eq_false_iff_ne.mpr h

theorem applyChunkUpdate_concat (base : List ChatMessage) (t full : String) :
    applyChunkUpdate (base ++ [⟨Role.ai, t⟩]) full = base ++ [⟨Role.ai, full⟩] := by
  simp [applyChunkUpdate, List.getLast?_concat, List.dropLast_concat]

theorem streamFold_ai (chunks : List String) :
    ∀ (base : List ChatMessage) (full : String),
      streamFold (base ++ [⟨Role.ai, full⟩]) full chunks =
        (base ++ [⟨Role.ai, full ++ concatChunks chunks⟩],
         full ++ concatChunks chunks) := by
  induction chunks with
  | nil =>
      intro base full
      simp [streamFold, concatChunks]
  | cons c rest ih =>
      intro base full
      simp only [streamFold, applyChunkUpdate_concat, concatChunks]
      rw [ih base (full ++ c), String.append_assoc]

/-! ## C4 — streaming concatenation -/

/-- C4.  For every finite stream of chunks delivered during a chat turn,
the assistant message's text after the k-th chunk is the concatenation of
the first k chunks in arrival order (the state after the k-th chunk is
the state reached by folding the k-chunk prefix); in particular the
simulated stream `["Hel", "lo, ", "world"]` passes through the
intermediate texts `"Hel"`, `"Hello, "`, `"Hello, world"` and ends at
`"Hello, world"`. -/
theorem streaming_concatenation :
    (∀ (history : List ChatMessage) (q : String) (chunks : List String) (k : Nat),
      chatAfter history q (chunks.take k) =
        history ++ [⟨Role.user, q⟩, ⟨Role.ai, concatChunks (chunks.take k)⟩]) ∧
    chatAfter [] "q" ["Hel"] = [⟨Role.user, "q"⟩, ⟨Role.ai, "Hel"⟩] ∧
    chatAfter [] "q" ["Hel", "lo, "] = [⟨Role.user, "q"⟩, ⟨Role.ai, "Hello, "⟩] ∧
    chatAfter [] "q" ["Hel", "lo, ", "world"] =
      [⟨Role.user, "q"⟩, ⟨Role.ai, "Hello, world"⟩] := by
  refine ⟨?_, rfl, rfl, rfl⟩
  intro history q chunks k
  have h := streamFold_ai (chunks.take k) (history ++ [⟨Role.user, q⟩]) ""
  simp only [chatAfter, List.append_assoc, List.cons_append, List.nil_append] at h ⊢
  rw [h]
  simp

/-! ## C5 — a failed file fetch clears the path/content pairing -/

/-- C5.  Whenever the raw-content fetch of `fetchFileContent` fails (the
guard passed, so a request was actually issued), the resulting session
holds `selectedFilePath = none` and `currentFileContent = none`: no stale
pairing survives. -/
theorem failedFileFetch_clears_selection :
    ∀ (st : AppState) (filePath e : String) (f : RepoFile),
      findFileRecursive st.repoFiles filePath = some f →
      jsTruthy f.url = true →
      (fetchFileContent st filePath (.error e)).1.selectedFilePath = none ∧
      (fetchFileContent st filePath (.error e)).1.currentFileContent = none := by
  intro st filePath e f hfind hurl
  simp [fetchFileContent, hfind, hurl]

/-- Witness for C5 at a concrete session: a one-file tree whose fetch
fails. -/
theorem failedFileFetch_clears_selection_witness :
    (fetchFileContent sessionC5 "a.txt" (.error "boom")).1.selectedFilePath = none ∧
    (fetchFileContent sessionC5 "a.txt" (.error "boom")).1.currentFileContent = none :=
  failedFileFetch_clears_selection sessionC5 "a.txt" "boom"
    (.file "a.txt" "a.txt" "s" (some "u"))
    (by simp [sessionC5, findFileRecursive]) rfl

/-! ## C10 — unresolvable path: error reported, no network request -/

/-- C10.  When the requested path does not name a file-typed entry of the
current tree, or the entry found has no content address, the operation
issues no network request (`false`), records the not-found message,
resets `isLoading`, ends with `currentFileContent = none`, and leaves
every other component of the session unchanged (the result is exactly the
input state with those three fields set). -/
theorem fetchFileContent_notFound_noNetwork :
    ∀ (st : AppState) (filePath : String) (res : Except String String),
      (findFileRecursive st.repoFiles filePath = none ∨
        ∃ f, findFileRecursive st.repoFiles filePath = some f ∧ f.url = none) →
      fetchFileContent st filePath res =
        ({ st with isLoading := false,
                   errorMessage := some (fileNotFoundMsg filePath),
                   currentFileContent := none }, false) := by
  intro st filePath res h
  rcases h with h | ⟨f, hfind, hurl⟩
  · simp [fetchFileContent, h]
  · simp [fetchFileContent, hfind, hurl, jsTruthy]

/-- Witness for C10: a session whose tree is a single directory, queried
for a path that is not a file entry. -/
theorem fetchFileContent_notFound_noNetwork_witness :
    fetchFileContent sessionC10 "src/x.ts" (.ok "ignored") =
      ({ sessionC10 with isLoading := false,
                         errorMessage := some (fileNotFoundMsg "src/x.ts"),
                         currentFileContent := none }, false) :=
  fetchFileContent_notFound_noNetwork sessionC10 "src/x.ts" (.ok "ignored")
    (Or.inl (by simp [sessionC10, findFileRecursive]))

/-! ## C8 — re-selecting the selected file -/

/-- C8 counterexample.  The code's guard tests JavaScript truthiness, not
non-nullness: with the selected file's content loaded as the empty string
(non-null), clicking the already-selected file issues a second fetch, so
the claim "content non-null implies no-op" is false. -/
theorem reselect_refetches_empty_content :
    (some "" : Option String) ≠ none ∧
    (handleFileClick (.file "a.txt" "a.txt" "s" (some "u")) false
      (some "a.txt") (some "")).1 = true := by
  exact ⟨by decide, rfl⟩

/-- C8 amended.  Re-selecting the already-selected file is a no-op — no
fetch is issued, the open flag and the selection are untouched — when the
loaded content is truthy (non-null and non-empty); the JavaScript guard
`currentFileContent` is truthiness, so the empty string re-fetches. -/
theorem reselect_noop_when_truthy :
    ∀ (f : RepoFile) (isOpen : Bool) (sel content : Option String),
      f.isFile = true → sel = some f.path → jsTruthy content = true →
      handleFileClick f isOpen sel content = (false, isOpen, sel) := by
  intro f isOpen sel content hf hsel hc
  simp [handleFileClick, hf, hsel, hc]

/-- Witness for C8 at a concrete click with non-empty loaded content. -/
theorem reselect_noop_when_truthy_witness :
    handleFileClick (.file "a.txt" "a.txt" "s" (some "u")) true
      (some "a.txt") (some "text") = (false, true, some "a.txt") :=
  reselect_noop_when_truthy (.file "a.txt" "a.txt" "s" (some "u")) true
    (some "a.txt") (some "text") rfl rfl rfl

/-! ## C9 — language tag mapping -/

/-- C9 counterexample.  The claim maps every extension outside the listed
table to `plain-text`, but the code maps the extension `markdown` —
absent from the spec's table — to `markdown` (and its fallback literal is
`textile`). -/
theorem getLanguage_markdown_counterexample :
    getLanguage "notes.markdown" = "markdown" ∧
    specLanguage "notes.markdown" = "plain-text" ∧
    ("markdown" : String) ≠ "plain-text" := by
  refine ⟨by decide, by decide, by decide⟩

/-- C9 amended.  The language tag is the exact function of the final
(lowercased) extension given by the spec's table extended with
`markdown → markdown`, and every other extension maps to the code's
plain-text fallback tag `textile`. -/
theorem getLanguage_amended :
    ∀ filePath : String, getLanguage filePath = amendedLanguage filePath := by
  intro filePath
  unfold getLanguage amendedLanguage codeLanguageTable specLanguageTable
  generalize finalExtension filePath = e
  unfold languageOfExtension
  split <;> simp_all [List.lookup, beq_iff_eq, strBeqFalse]

/-! ## C6 — credential-gate revocation -/

/-- C6 counterexample.  The controller dispatches on a substring of the
thrown message, not on the failure kind: a backend failure that the
client classifies as a transport error (neither credential marker is
present) still revokes the gate when its text happens to contain the
dispatch substring.  So "no other failure kind revokes the gate" is
false. -/
theorem gate_revoked_by_transport_error :
    geminiIsCredentialError adversarialBackendMsg = false ∧
    (handleAiError sessionGateOpen
      (geminiThrown adversarialBackendMsg)).isApiKeySelected = false := by
  exact ⟨rfl, rfl⟩

/-- C6 amended.  The gate is revoked exactly when the surfaced error text
contains the dispatch substring: an invalid-credential failure reported
by the client always does, and then the gate closes and the reselect
instruction is shown; a message without the substring never revokes the
gate; but a transport failure whose text happens to contain the substring
also revokes it (see the counterexample). -/
theorem invalidCredential_revokes_gate :
    ∀ (st : AppState) (thrown : String),
      (jsIncludes thrown invalidKeyNeedle = true →
        (handleAiError st thrown).isApiKeySelected = false ∧
        (handleAiError st thrown).errorMessage = some reselectKeyMsg) ∧
      (jsIncludes thrown invalidKeyNeedle = false →
        (handleAiError st thrown).isApiKeySelected = st.isApiKeySelected) ∧
      (∀ backendMsg, geminiIsCredentialError backendMsg = true →
        jsIncludes (geminiThrown backendMsg) invalidKeyNeedle = true) := by
  intro st thrown
  refine ⟨?_, ?_, ?_⟩
  · intro h
    simp [handleAiError, h]
  · intro h
    simp [handleAiError, h]
  · intro backendMsg h
    simp [geminiThrown, h]
    rfl

/-- Witness for C6 at the client's actual invalid-credential message. -/
theorem invalidCredential_revokes_gate_witness :
    (handleAiError sessionGateOpen invalidKeyThrownMsg).isApiKeySelected = false ∧
    (handleAiError sessionGateOpen invalidKeyThrownMsg).errorMessage =
      some reselectKeyMsg :=
  (invalidCredential_revokes_gate sessionGateOpen invalidKeyThrownMsg).1 rfl

/-! ## Tree construction: list and arena lemmas -/

theorem get?_some_lt {α : Type} :
    ∀ (l : List α) (n : Nat) (a : α), l.get? n = some a → n < l.length := by
  intro l
  induction l with
  | nil => intro n a h; cases n <;> simp [List.get?] at h
  | cons x xs ih =>
      intro n a h
      cases n with
      | zero => simp
      | succ m =>
          simp only [List.get?] at h
          exact Nat.succ_lt_succ (ih m a h)

theorem get?_isSome_of_lt {α : Type} :
    ∀ (l : List α) (n : Nat), n < l.length → ∃ a, l.get? n = some a := by
  intro l
  induction l with
  | nil => intro n h; simp at h
  | cons x xs ih =>
      intro n h
      cases n with
      | zero => exact ⟨x, rfl⟩
      | succ m => exact ih m (Nat.lt_of_succ_lt_succ h)

theorem get?_concat_lt {α : Type} :
    ∀ (l : List α) (a : α) (k : Nat), k < l.length →
      (l ++ [a]).get? k = l.get? k := by
  intro l
  induction l with
  | nil => intro a k h; simp at h
  | cons x xs ih =>
      intro a k h
      cases k with
      | zero => rfl
      | succ m =>
          simp only [List.cons_append, List.get?]
          exact ih a m (Nat.lt_of_succ_lt_succ h)

theorem get?_concat_len {α : Type} :
    ∀ (l : List α) (a : α), (l ++ [a]).get? l.length = some a := by
  intro l
  induction l with
  | nil => intro a; rfl
  | cons x xs ih => intro a; simp [ih a]

theorem get?_concat_gt {α : Type} :
    ∀ (l : List α) (a : α) (k : Nat), l.length < k →
      (l ++ [a]).get? k = none := by
  intro l
  induction l with
  | nil =>
      intro a k h
      cases k with
      | zero => simp at h
      | succ m => cases m <;> rfl
  | cons x xs ih =>
      intro a k h
      cases k with
      | zero => simp at h
      | succ m =>
          simp only [List.cons_append, List.get?]
          exact ih a m (Nat.lt_of_succ_lt_succ h)

theorem modifyAt_length {α : Type} :
    ∀ (l : List α) (i : Nat) (f : α → α), (modifyAt l i f).length = l.length := by
  intro l
  induction l with
  | nil => intro i f; cases i <;> rfl
  | cons x xs ih =>
      intro i f
      cases i with
      | zero => rfl
      | succ n => simp [modifyAt, ih]

theorem get?_modifyAt_ne {α : Type} :
    ∀ (l : List α) (i k : Nat) (f : α → α), k ≠ i →
      (modifyAt l i f).get? k = l.get? k := by
  intro l
  induction l with
  | nil => intro i k f _; cases i <;> rfl
  | cons x xs ih =>
      intro i k f h
      cases i with
      | zero =>
          cases k with
          | zero => exact absurd rfl h
          | succ m => rfl
      | succ n =>
          cases k with
          | zero => rfl
          | succ m =>
              simp only [modifyAt, List.get?]
              exact ih n m f (fun hh => h (by rw [hh]))

theorem get?_modifyAt_self {α : Type} :
    ∀ (l : List α) (i : Nat) (f : α → α),
      (modifyAt l i f).get? i = (l.get? i).map f := by
  intro l
  induction l with
  | nil => intro i f; cases i <;> rfl
  | cons x xs ih =>
      intro i f
      cases i with
      | zero => rfl
      | succ n => simpa [modifyAt] using ih n f

theorem map_modifyAt {α β : Type} (f : α → α) (g : α → β)
    (hf : ∀ a, g (f a) = g a) :
    ∀ (l : List α) (i : Nat), (modifyAt l i f).map g = l.map g := by
  intro l
  induction l with
  | nil => intro i; cases i <;> rfl
  | cons x xs ih =>
      intro i
      cases i with
      | zero => simp [modifyAt, hf]
      | succ n => simp [modifyAt, ih n]

theorem stepBuild_skip (rawBase owner repo branch : String) (st : BuildState)
    (it : TreeItem) (h : dlookup st.dirMap (parentPath it.path) = none) :
    stepBuild rawBase owner repo branch st it = st := by
  simp [stepBuild, h]

/-- Characterization of a non-skipped step: a fresh leaf node carrying the
record's path is appended at index `st.nodes.length` and registered in
its parent's children; `dirMap` gains the binding exactly for a `tree`
record.  The node is a directory node iff the record is a `tree`. -/
theorem stepBuild_nodes (rawBase owner repo branch : String) (st : BuildState)
    (it : TreeItem) (p : Nat)
    (h : dlookup st.dirMap (parentPath it.path) = some p) :
    ∃ nd : Node, nd.path = it.path ∧ nd.children = [] ∧
      (nd.kind = FileKind.dir ↔ it.type = GitKind.tree) ∧
      (stepBuild rawBase owner repo branch st it).nodes =
        modifyAt (st.nodes ++ [nd]) p
          (fun d => { d with children := d.children ++ [st.nodes.length] }) ∧
      (stepBuild rawBase owner repo branch st it).dirMap =
        (if it.type = GitKind.tree
          then (it.path, st.nodes.length) :: st.dirMap else st.dirMap) := by
  cases htype : it.type with
  | tree =>
      refine ⟨⟨itemName it.path, it.path, it.sha, FileKind.dir, none, []⟩,
        rfl, rfl, by simp, ?_, ?_⟩ <;> simp [stepBuild, h, htype]
  | blob =>
      refine ⟨⟨itemName it.path, it.path, it.sha, FileKind.file,
        some (rawUrl rawBase owner repo branch it.path), []⟩,
        rfl, rfl, by simp, ?_, ?_⟩ <;> simp [stepBuild, h, htype]

theorem stepBuild_map_path (rawBase owner repo branch : String) (st : BuildState)
    (it : TreeItem) (p : Nat)
    (h : dlookup st.dirMap (parentPath it.path) = some p) :
    (stepBuild rawBase owner repo branch st it).nodes.map Node.path =
      st.nodes.map Node.path ++ [it.path] := by
  obtain ⟨nd, hpath, -, -, hnodes, -⟩ :=
    stepBuild_nodes rawBase owner repo branch st it p h
  rw [hnodes,
    map_modifyAt (fun d => { d with children := d.children ++ [st.nodes.length] })
      Node.path (fun a => rfl), List.map_append]
  simp [hpath]

/-- A non-skipped step preserves every arena invariant. -/
theorem stepBuild_wf (rawBase owner repo branch : String) (st : BuildState)
    (it : TreeItem) (hwf : ArenaWF st) :
    ArenaWF (stepBuild rawBase owner repo branch st it) := by
  cases hl : dlookup st.dirMap (parentPath it.path) with
  | none => rw [stepBuild_skip rawBase owner repo branch st it hl]; exact hwf
  | some p =>
      obtain ⟨nd, hndpath, hndchildren, hndkind, hnodes, hmap⟩ :=
        stepBuild_nodes rawBase owner repo branch st it p hl
      obtain ⟨pd, hpd, hpdkind⟩ := hwf.map_dir _ _ hl
      have hplt : p < st.nodes.length := get?_some_lt _ _ _ hpd
      set S := stepBuild rawBase owner repo branch st it with hS
      set N := st.nodes.length with hN
      have hlen : S.nodes.length = N + 1 := by
        rw [hnodes, modifyAt_length]; simp
      have hget_p : S.nodes.get? p = some { pd with children := pd.children ++ [N] } := by
        rw [hnodes, get?_modifyAt_self, get?_concat_lt _ _ _ hplt, hpd]; rfl
      have hget_new : S.nodes.get? N = some nd := by
        rw [hnodes, get?_modifyAt_ne _ _ _ _ (Nat.ne_of_gt hplt)]
        exact get?_concat_len st.nodes nd
      have hget_old : ∀ k, k ≠ p → k < N → S.nodes.get? k = st.nodes.get? k := by
        intro k hk hkN
        rw [hnodes, get?_modifyAt_ne _ _ _ _ hk, get?_concat_lt _ _ _ hkN]
      have hget_out : ∀ k, N < k → S.nodes.get? k = none := by
        intro k hk
        rw [hnodes, get?_modifyAt_ne _ _ _ _ (by omega), get?_concat_gt _ _ _ hk]
      have hold_dir : ∀ q v, dlookup st.dirMap q = some v →
          ∃ nd', S.nodes.get? v = some nd' ∧ nd'.kind = FileKind.dir := by
        intro q v hv
        obtain ⟨nd', hnd', hkind'⟩ := hwf.map_dir q v hv
        by_cases hvp : v = p
        · subst hvp
          rw [hpd] at hnd'
          obtain rfl := Option.some.inj hnd'
          exact ⟨{ pd with children := pd.children ++ [N] }, hget_p, hpdkind⟩
        · exact ⟨nd', by rw [hget_old v hvp (get?_some_lt _ _ _ hnd')]; exact hnd', hkind'⟩
      constructor
      · rw [hlen]; omega
      · intro k knd hk j hj
        by_cases hkp : k = p
        · subst hkp
          rw [hget_p] at hk
          obtain rfl := Option.some.inj hk
          rcases List.mem_append.mp hj with hj | hj
          · obtain ⟨h1, h2⟩ := hwf.child_range k pd hpd j hj
            exact ⟨h1, by omega⟩
          · have hjN : j = N := by simpa using hj
            subst hjN
            exact ⟨hplt, by omega⟩
        · by_cases hkN : k < N
          · rw [hget_old k hkp hkN] at hk
            obtain ⟨h1, h2⟩ := hwf.child_range k knd hk j hj
            exact ⟨h1, by omega⟩
          · by_cases hkeq : k = N
            · subst hkeq
              rw [hget_new] at hk
              obtain rfl := Option.some.inj hk
              rw [hndchildren] at hj
              simp at hj
            · rw [hget_out k (by omega)] at hk
              simp at hk
      · intro j h1 hj2
        rw [hlen] at hj2
        by_cases hjN : j = N
        · subst hjN
          exact ⟨p, { pd with children := pd.children ++ [N] }, hget_p,
            hpdkind, by simp⟩
        · obtain ⟨k, knd, hget, hkind, hmem⟩ :=
            hwf.parent_exists j h1 (by omega)
          by_cases hkp : k = p
          · subst hkp
            rw [hpd] at hget
            obtain rfl := Option.some.inj hget
            exact ⟨k, { pd with children := pd.children ++ [N] }, hget_p,
              hpdkind, List.mem_append.mpr (Or.inl hmem)⟩
          · exact ⟨k, knd,
              by rw [hget_old k hkp (get?_some_lt _ _ _ hget)]; exact hget,
              hkind, hmem⟩
      · intro q v hv
        rw [hmap] at hv
        by_cases htype : it.type = GitKind.tree
        · rw [if_pos htype] at hv
          by_cases hq : it.path = q
          · have hvN : N = v := by simpa [dlookup, hq] using hv
            subst hvN
            exact ⟨nd, hget_new, hndkind.mpr htype⟩
          · have hv' : dlookup st.dirMap q = some v := by
              simpa [dlookup, hq] using hv
            exact hold_dir q v hv'
        · rw [if_neg htype] at hv
          exact hold_dir q v hv
      · intro k knd hk hkind
        by_cases hkp : k = p
        · subst hkp
          rw [hget_p] at hk
          obtain rfl := Option.some.inj hk
          have : pd.kind = FileKind.file := hkind
          rw [hpdkind] at this
          cases this
        · by_cases hkN : k < N
          · rw [hget_old k hkp hkN] at hk
            exact hwf.file_leaf k knd hk hkind
          · by_cases hkeq : k = N
            · subst hkeq
              rw [hget_new] at hk
              obtain rfl := Option.some.inj hk
              exact hndchildren
            · rw [hget_out k (by omega)] at hk
              simp at hk

theorem buildGo_wf (rawBase owner repo branch : String) :
    ∀ (items : List TreeItem) (st : BuildState), ArenaWF st →
      ArenaWF (buildGo rawBase owner repo branch st items) := by
  intro items
  induction items with
  | nil => intro st h; exact h
  | cons it rest ih =>
      intro st h
      exact ih _ (stepBuild_wf rawBase owner repo branch st it h)

theorem buildInit_wf (repo treeSha : String) : ArenaWF (buildInit repo treeSha) := by
  refine ⟨by simp [buildInit], ?_, ?_, ?_, ?_⟩
  · intro k nd hk j hj
    cases k with
    | zero =>
        simp only [buildInit, List.get?, Option.some.injEq] at hk
        rw [← hk] at hj
        simp at hj
    | succ m => simp [buildInit, List.get?] at hk
  · intro j h1 h2
    simp [buildInit] at h2
    omega
  · intro q v hv
    by_cases hq : "" = q
    · have hv0 : (0 : Nat) = v := by simpa [buildInit, dlookup, hq] using hv
      subst hv0
      exact ⟨⟨repo, "", treeSha, FileKind.dir, none, []⟩, rfl, rfl⟩
    · simp [buildInit, dlookup, hq] at hv
  · intro k nd hk hkind
    cases k with
    | zero =>
        simp only [buildInit, List.get?, Option.some.injEq] at hk
        rw [← hk] at hkind
        cases hkind
    | succ m => simp [buildInit, List.get?] at hk

theorem buildGo_map_path (rawBase owner repo branch : String) :
    ∀ (items : List TreeItem) (st : BuildState),
      (buildGo rawBase owner repo branch st items).nodes.map Node.path =
        st.nodes.map Node.path ++
          (keptGo rawBase owner repo branch st items).map TreeItem.path := by
  intro items
  induction items with
  | nil => intro st; simp [buildGo, keptGo]
  | cons it rest ih =>
      intro st
      cases hl : dlookup st.dirMap (parentPath it.path) with
      | none =>
          simp only [buildGo]
          rw [stepBuild_skip rawBase owner repo branch st it hl, ih st]
          simp [keptGo, hl]
      | some p =>
          simp only [buildGo]
          rw [ih (stepBuild rawBase owner repo branch st it),
            stepBuild_map_path rawBase owner repo branch st it p hl]
          simp [keptGo, hl]

theorem dlookup_isSome_eq_strMem :
    ∀ (m : List (String × Nat)) (p : String),
      (dlookup m p).isSome = strMem p (keysOf m) := by
  intro m
  induction m with
  | nil => intro p; rfl
  | cons kv rest ih =>
      intro p
      obtain ⟨k, v⟩ := kv
      by_cases h : k = p <;> simp [dlookup, strMem, keysOf, h, ih]

theorem keptGo_grounded (rawBase owner repo branch : String) :
    ∀ (items : List TreeItem) (st : BuildState),
      groundedFrom (keysOf st.dirMap) items = true →
      keptGo rawBase owner repo branch st items = items := by
  intro items
  induction items with
  | nil => intro st _; rfl
  | cons it rest ih =>
      intro st h
      simp only [groundedFrom, Bool.and_eq_true] at h
      obtain ⟨h1, h2⟩ := h
      have hs : (dlookup st.dirMap (parentPath it.path)).isSome = true := by
        rw [dlookup_isSome_eq_strMem]; exact h1
      obtain ⟨p, hp⟩ := Option.isSome_iff_exists.mp hs
      simp only [keptGo, hs, if_pos]
      congr 1
      apply ih
      obtain ⟨nd, -, -, -, -, hmap⟩ :=
        stepBuild_nodes rawBase owner repo branch st it p hp
      rw [hmap]
      by_cases htype : it.type = GitKind.tree <;>
        simp only [htype, if_pos, if_neg, if_true, if_false, keysOf] at h2 ⊢ <;>
        simp_all [keysOf]

theorem map_congr_mem {α β : Type} (f g : α → β) :
    ∀ l : List α, (∀ a ∈ l, f a = g a) → l.map f = l.map g := by
  intro l
  induction l with
  | nil => intro _; rfl
  | cons x xs ih =>
      intro h
      simp only [List.map_cons, h x (by simp)]
      rw [ih (fun a ha => h a (by simp [ha]))]

theorem get?_map' {α β : Type} (f : α → β) :
    ∀ (l : List α) (n : Nat), (l.map f).get? n = (l.get? n).map f := by
  intro l
  induction l with
  | nil => intro n; cases n <;> rfl
  | cons x xs ih =>
      intro n
      cases n with
      | zero => rfl
      | succ m => simp [ih m]

theorem mem_of_get? {α : Type} :
    ∀ (l : List α) (n : Nat) (a : α), l.get? n = some a → a ∈ l := by
  intro l
  induction l with
  | nil => intro n a h; cases n <;> simp [List.get?] at h
  | cons x xs ih =>
      intro n a h
      cases n with
      | zero =>
          simp only [List.get?, Option.some.injEq] at h
          simp [h]
      | succ m =>
          simp only [List.get?] at h
          simp [ih m a h]

theorem get?_of_mem' {α : Type} :
    ∀ (l : List α) (a : α), a ∈ l → ∃ n, l.get? n = some a := by
  intro l
  induction l with
  | nil => intro a h; simp at h
  | cons x xs ih =>
      intro a h
      rcases List.mem_cons.mp h with rfl | h
      · exact ⟨0, rfl⟩
      · obtain ⟨n, hn⟩ := ih a h
        exact ⟨n + 1, hn⟩

theorem allPathsList_cons (x : RepoFile) (xs : List RepoFile) :
    allPathsList (x :: xs) = allPathsList [x] ++ allPathsList xs := by
  cases x <;> simp [allPathsList]

theorem mem_allPathsList_map (g : Nat → RepoFile) (q : String) :
    ∀ ids : List Nat, q ∈ allPathsList (ids.map g) →
      ∃ j ∈ ids, q ∈ allPathsList [g j] := by
  intro ids
  induction ids with
  | nil => intro h; simp [allPathsList] at h
  | cons a as ih =>
      intro h
      rw [List.map_cons, allPathsList_cons] at h
      rcases List.mem_append.mp h with h | h
      · exact ⟨a, by simp, h⟩
      · obtain ⟨j, hj, hq⟩ := ih h
        exact ⟨j, by simp [hj], hq⟩

theorem subset_allPathsList_map (g : Nat → RepoFile) :
    ∀ (ids : List Nat) (j : Nat), j ∈ ids →
      ∀ q, q ∈ allPathsList [g j] → q ∈ allPathsList (ids.map g) := by
  intro ids
  induction ids with
  | nil => intro j hj; simp at hj
  | cons a as ih =>
      intro j hj q hq
      rw [List.map_cons, allPathsList_cons]
      rcases List.mem_cons.mp hj with rfl | hj
      · exact List.mem_append.mpr (Or.inl hq)
      · exact List.mem_append.mpr (Or.inr (ih j hj q hq))

theorem matNode_succ_some (nodes : List Node) (f i : Nat) (nd : Node)
    (hget : nodes.get? i = some nd) :
    matNode nodes (f + 1) i =
      (match nd.kind with
        | FileKind.file => RepoFile.file nd.name nd.path nd.sha nd.url
        | FileKind.dir => RepoFile.dir nd.name nd.path nd.sha
            (nd.children.map (fun j => matNode nodes f j))) := by
  simp only [matNode]
  rw [hget]

theorem matNode_file (nodes : List Node) (f i : Nat) (nd : Node)
    (hget : nodes.get? i = some nd) (hkind : nd.kind = FileKind.file) :
    matNode nodes (f + 1) i = RepoFile.file nd.name nd.path nd.sha nd.url := by
  rw [matNode_succ_some nodes f i nd hget, hkind]

theorem matNode_dir (nodes : List Node) (f i : Nat) (nd : Node)
    (hget : nodes.get? i = some nd) (hkind : nd.kind = FileKind.dir) :
    matNode nodes (f + 1) i = RepoFile.dir nd.name nd.path nd.sha
      (nd.children.map (fun j => matNode nodes f j)) := by
  rw [matNode_succ_some nodes f i nd hget, hkind]

/-- Fuel irrelevance: on a well-formed arena any fuel of at least
`length - i` materializes node `i` to the same tree (children indices
strictly increase, so the recursion depth from `i` is bounded). -/
theorem matNode_irrel (st : BuildState) (hwf : ArenaWF st) :
    ∀ (f f' i : Nat), i < st.nodes.length →
      st.nodes.length - i ≤ f → st.nodes.length - i ≤ f' →
      matNode st.nodes f i = matNode st.nodes f' i := by
  intro f
  induction f with
  | zero => intro f' i hi h h'; omega
  | succ f ih =>
      intro f' i hi h h'
      cases f' with
      | zero => omega
      | succ f'' =>
          obtain ⟨nd, hget⟩ := get?_isSome_of_lt st.nodes i hi
          cases hkind : nd.kind with
          | file =>
              rw [matNode_file st.nodes f i nd hget hkind,
                matNode_file st.nodes f'' i nd hget hkind]
          | dir =>
              rw [matNode_dir st.nodes f i nd hget hkind,
                matNode_dir st.nodes f'' i nd hget hkind]
              congr 1
              apply map_congr_mem
              intro j hj
              obtain ⟨hij, hjn⟩ := hwf.child_range i nd hget j hj
              exact ih f'' j hjn (by omega) (by omega)

/-- Every path produced by materializing a non-root node is the path of
some non-root arena node. -/
theorem matNode_sound (st : BuildState) (hwf : ArenaWF st) :
    ∀ (f i : Nat), 1 ≤ i → i < st.nodes.length → st.nodes.length - i ≤ f →
      ∀ q ∈ allPathsList [matNode st.nodes f i],
        ∃ j nd, 1 ≤ j ∧ st.nodes.get? j = some nd ∧ q = nd.path := by
  intro f
  induction f with
  | zero => intro i h1 hi hf; omega
  | succ f ih =>
      intro i h1 hi hf q hq
      obtain ⟨nd, hget⟩ := get?_isSome_of_lt st.nodes i hi
      cases hkind : nd.kind with
      | file =>
          rw [matNode_file st.nodes f i nd hget hkind] at hq
          simp only [allPathsList, List.mem_singleton] at hq
          exact ⟨i, nd, h1, hget, hq⟩
      | dir =>
          rw [matNode_dir st.nodes f i nd hget hkind] at hq
          simp only [allPathsList, List.append_nil, List.mem_cons] at hq
          rcases hq with rfl | hq
          · exact ⟨i, nd, h1, hget, rfl⟩
          · obtain ⟨j, hjmem, hqj⟩ :=
              mem_allPathsList_map (fun a => matNode st.nodes f a) q nd.children hq
            obtain ⟨hij, hjn⟩ := hwf.child_range i nd hget j hjmem
            exact ih j (by omega) hjn (by omega) q hqj

/-- The materialized node's own path heads its traversal. -/
theorem matNode_path_head (st : BuildState) :
    ∀ (f i : Nat) (nd : Node), st.nodes.get? i = some nd → 1 ≤ f →
      nd.path ∈ allPathsList [matNode st.nodes f i] := by
  intro f i nd hget hf
  cases f with
  | zero => omega
  | succ f =>
      cases hkind : nd.kind with
      | file =>
          rw [matNode_file st.nodes f i nd hget hkind]
          simp [allPathsList]
      | dir =>
          rw [matNode_dir st.nodes f i nd hget hkind]
          simp [allPathsList]

/-- The traversal of a child is contained in the traversal of its
(directory) parent, at saturated fuel. -/
theorem matNode_sub (st : BuildState) (hwf : ArenaWF st) (i j : Nat) (nd : Node)
    (hget : st.nodes.get? i = some nd) (hkind : nd.kind = FileKind.dir)
    (hj : j ∈ nd.children) :
    ∀ q, q ∈ allPathsList [matNode st.nodes st.nodes.length j] →
      q ∈ allPathsList [matNode st.nodes st.nodes.length i] := by
  obtain ⟨hij, hjn⟩ := hwf.child_range i nd hget j hj
  intro q hq
  obtain ⟨f, hf⟩ : ∃ f, st.nodes.length = f + 1 :=
    ⟨st.nodes.length - 1, by omega⟩
  have hirr := matNode_irrel st hwf st.nodes.length f j hjn (by omega) (by omega)
  rw [hirr] at hq
  rw [hf, matNode_dir st.nodes f i nd hget hkind]
  have hsub :=
    subset_allPathsList_map (fun a => matNode st.nodes f a) nd.children j hj q hq
  simp only [allPathsList, List.append_nil, List.mem_cons]
  exact Or.inr hsub

/-- Every non-root node's traversal is contained in the traversal of the
root's children: following `parent_exists` upwards terminates at the
root because parents have smaller indices. -/
theorem matNode_reach (st : BuildState) (hwf : ArenaWF st) (root : Node)
    (hroot : st.nodes.get? 0 = some root) :
    ∀ j, 1 ≤ j → j < st.nodes.length →
      ∀ q, q ∈ allPathsList [matNode st.nodes st.nodes.length j] →
        q ∈ allPathsList
          (root.children.map (fun a => matNode st.nodes st.nodes.length a)) := by
  intro j
  induction j using Nat.strong_induction_on with
  | _ j ih =>
      intro h1 hj q hq
      obtain ⟨k, knd, hk, hkind, hmem⟩ := hwf.parent_exists j h1 hj
      obtain ⟨hkj, hjn⟩ := hwf.child_range k knd hk j hmem
      cases Nat.eq_zero_or_pos k with
      | inl hk0 =>
          subst hk0
          rw [hroot] at hk
          obtain rfl := Option.some.inj hk
          exact subset_allPathsList_map _ root.children j hmem q hq
      | inr hkpos =>
          have hkn : k < st.nodes.length := get?_some_lt _ _ _ hk
          exact ih k hkj hkpos hkn q
            (matNode_sub st hwf k j knd hk hkind hmem q hq)

/-- The depth-first traversal of the returned tree holds exactly the
paths of the non-skipped listing records. -/
theorem fetchRepoTree_paths_kept (rawBase owner repo branch treeSha : String)
    (items : List TreeItem) (q : String) :
    q ∈ allPathsList (fetchRepoTree rawBase owner repo branch treeSha items) ↔
      q ∈ (keptGo rawBase owner repo branch (buildInit repo treeSha) items).map
            TreeItem.path := by
  have hwf : ArenaWF (buildGo rawBase owner repo branch (buildInit repo treeSha) items) :=
    buildGo_wf rawBase owner repo branch items _ (buildInit_wf repo treeSha)
  have hpaths : (buildGo rawBase owner repo branch (buildInit repo treeSha)
        items).nodes.map Node.path =
      "" :: (keptGo rawBase owner repo branch (buildInit repo treeSha) items).map
        TreeItem.path := by
    rw [buildGo_map_path]
    rfl
  obtain ⟨root, hroot⟩ := get?_isSome_of_lt _ 0 hwf.nonempty
  have hfetch : fetchRepoTree rawBase owner repo branch treeSha items =
      root.children.map (fun j => matNode
        (buildGo rawBase owner repo branch (buildInit repo treeSha) items).nodes
        (buildGo rawBase owner repo branch (buildInit repo treeSha) items).nodes.length
        j) := by
    simp only [fetchRepoTree, hroot]
  rw [hfetch]
  constructor
  · intro hq
    obtain ⟨a, ha, hqa⟩ := mem_allPathsList_map _ q root.children hq
    obtain ⟨h0a, han⟩ := hwf.child_range 0 root hroot a ha
    obtain ⟨j, ndj, hj1, hjget, hqe⟩ :=
      matNode_sound _ hwf _ a h0a han (by omega) q hqa
    have hmap : ((buildGo rawBase owner repo branch (buildInit repo treeSha)
        items).nodes.map Node.path).get? j = some ndj.path := by
      rw [get?_map', hjget]
      rfl
    rw [hpaths] at hmap
    cases j with
    | zero => omega
    | succ j' =>
        have hkept : ((keptGo rawBase owner repo branch (buildInit repo treeSha)
            items).map TreeItem.path).get? j' = some ndj.path := by
          simpa using hmap
        rw [hqe]
        exact mem_of_get? _ j' ndj.path hkept
  · intro hq
    obtain ⟨j', hj'⟩ := get?_of_mem' _ q hq
    have hmap : ((buildGo rawBase owner repo branch (buildInit repo treeSha)
        items).nodes.map Node.path).get? (j' + 1) = some q := by
      rw [hpaths]
      simpa using hj'
    rw [get?_map'] at hmap
    obtain ⟨ndj, hndget, hndpath⟩ := Option.map_eq_some'.mp hmap
    have hjlt : j' + 1 <
        (buildGo rawBase owner repo branch (buildInit repo treeSha)
          items).nodes.length := get?_some_lt _ _ _ hndget
    have hhead : ndj.path ∈ allPathsList [matNode
        (buildGo rawBase owner repo branch (buildInit repo treeSha) items).nodes
        (buildGo rawBase owner repo branch (buildInit repo treeSha)
          items).nodes.length (j' + 1)] :=
      matNode_path_head _ _ (j' + 1) ndj hndget (by omega)
    rw [← hndpath]
    exact matNode_reach _ hwf root hroot (j' + 1) (by omega) hjlt ndj.path hhead

/-! ## C2 — round trip of the tree construction -/

/-- C2.  The two-record example listing builds exactly one directory
entry named `a` whose single child is the file entry `a/b.txt` (with its
derived raw-content address); and for every parent-before-child-ordered
flat listing, the depth-first traversal of the tree built by
`fetchRepoTree` yields exactly the set of paths of the listing. -/
theorem fetchRepoTree_roundTrip :
    fetchRepoTree "https://raw.githubusercontent.com" "o" "r" "main" "root-sha"
        exampleListing =
      [RepoFile.dir "a" "a" "sha-a"
        [RepoFile.file "b.txt" "a/b.txt" "sha-b"
          (some "https://raw.githubusercontent.com/o/r/main/a/b.txt")]] ∧
    ∀ (rawBase owner repo branch treeSha : String) (items : List TreeItem),
      groundedFrom [""] items = true →
      ∀ q, q ∈ allPathsList (fetchRepoTree rawBase owner repo branch treeSha items) ↔
        q ∈ items.map TreeItem.path := by
  constructor
  · rfl
  · intro rawBase owner repo branch treeSha items hg q
    rw [fetchRepoTree_paths_kept,
      keptGo_grounded rawBase owner repo branch items (buildInit repo treeSha) hg]

/-- Witness for C2: the example listing is parent-before-child ordered
and its file path round-trips through the built tree. -/
theorem fetchRepoTree_roundTrip_witness :
    groundedFrom [""] exampleListing = true ∧
    ("a/b.txt" ∈ allPathsList (fetchRepoTree "https://raw.githubusercontent.com"
        "o" "r" "main" "root-sha" exampleListing) ↔
      "a/b.txt" ∈ exampleListing.map TreeItem.path) :=
  ⟨by decide,
    fetchRepoTree_roundTrip.2 "https://raw.githubusercontent.com" "o" "r" "main"
      "root-sha" exampleListing (by decide) "a/b.txt"⟩

/-! ## C7 — orphaned listing records are skipped -/

/-- C7.  A record whose parent path is absent from the running map when
it is processed is skipped: the step leaves the state entirely unchanged
(the loop continues; the construction is total, so nothing fails), and
the traversal of the resulting tree holds exactly the paths of the
non-skipped records — a skipped record contributes no entry.  Every
other record is attached to its parent: the parent node gains the fresh
index as its last child and the fresh index holds a node carrying the
record's path. -/
theorem fetchRepoTree_skips_orphans :
    (∀ (rawBase owner repo branch : String) (st : BuildState) (it : TreeItem),
      dlookup st.dirMap (parentPath it.path) = none →
      stepBuild rawBase owner repo branch st it = st) ∧
    (∀ (rawBase owner repo branch treeSha : String) (items : List TreeItem),
      ∀ q, q ∈ allPathsList (fetchRepoTree rawBase owner repo branch treeSha items) ↔
        q ∈ (keptGo rawBase owner repo branch (buildInit repo treeSha) items).map
              TreeItem.path) ∧
    (∀ (rawBase owner repo branch : String) (st : BuildState) (it : TreeItem)
        (p : Nat) (pd : Node),
      dlookup st.dirMap (parentPath it.path) = some p →
      st.nodes.get? p = some pd →
      (stepBuild rawBase owner repo branch st it).nodes.get? p =
        some { pd with children := pd.children ++ [st.nodes.length] } ∧
      ∃ nd, (stepBuild rawBase owner repo branch st it).nodes.get?
          st.nodes.length = some nd ∧ nd.path = it.path) := by
  refine ⟨fun rawBase owner repo branch st it h =>
      stepBuild_skip rawBase owner repo branch st it h,
    fun rawBase owner repo branch treeSha items q =>
      fetchRepoTree_paths_kept rawBase owner repo branch treeSha items q, ?_⟩
  intro rawBase owner repo branch st it p pd h hpd
  obtain ⟨nd, hndpath, -, -, hnodes, -⟩ :=
    stepBuild_nodes rawBase owner repo branch st it p h
  have hplt : p < st.nodes.length := get?_some_lt _ _ _ hpd
  constructor
  · rw [hnodes, get?_modifyAt_self, get?_concat_lt _ _ _ hplt, hpd]
    rfl
  · refine ⟨nd, ?_, hndpath⟩
    rw [hnodes, get?_modifyAt_ne _ _ _ _ (Nat.ne_of_gt hplt)]
    exact get?_concat_len st.nodes nd

/-- Witness for C7: the orphan record `x/y.txt` against the fresh root
map is skipped without failing; the built tree of the example listing
traverses to exactly the kept records' paths; the grounded record `a`
is attached to the root as child index 1. -/
theorem fetchRepoTree_skips_orphans_witness :
    stepBuild "RAW" "o" "r" "main" (buildInit "r" "ts")
        ⟨"x/y.txt", GitKind.blob, "s"⟩ = buildInit "r" "ts" ∧
    ("a" ∈ allPathsList (fetchRepoTree "RAW" "o" "r" "main" "ts" exampleListing) ↔
      "a" ∈ (keptGo "RAW" "o" "r" "main" (buildInit "r" "ts") exampleListing).map
              TreeItem.path) ∧
    ((stepBuild "RAW" "o" "r" "main" (buildInit "r" "ts")
        ⟨"a", GitKind.tree, "sa"⟩).nodes.get? 0 =
      some ⟨"r", "", "ts", FileKind.dir, none, [1]⟩ ∧
    ∃ nd, (stepBuild "RAW" "o" "r" "main" (buildInit "r" "ts")
        ⟨"a", GitKind.tree, "sa"⟩).nodes.get? 1 = some nd ∧ nd.path = "a") :=
  ⟨fetchRepoTree_skips_orphans.1 "RAW" "o" "r" "main" (buildInit "r" "ts")
      ⟨"x/y.txt", GitKind.blob, "s"⟩ (by decide),
    fetchRepoTree_skips_orphans.2.1 "RAW" "o" "r" "main" "ts" exampleListing "a",
    fetchRepoTree_skips_orphans.2.2 "RAW" "o" "r" "main" (buildInit "r" "ts")
      ⟨"a", GitKind.tree, "sa"⟩ 0 ⟨"r", "", "ts", FileKind.dir, none, []⟩
      (by decide) rfl⟩

/-! ## Locator parsing lemmas -/

theorem strData_append (s t : String) : (s ++ t).data = s.data ++ t.data := by
  cases s
  cases t
  rfl

theorem stripStart_sound :
    ∀ (pat l rest : List Char), stripStart pat l = some rest → l = pat ++ rest := by
  intro pat
  induction pat with
  | nil =>
      intro l rest h
      simp only [stripStart, Option.some.injEq] at h
      simp [h]
  | cons p ps ih =>
      intro l rest h
      cases l with
      | nil => simp [stripStart] at h
      | cons c cs =>
          simp only [stripStart] at h
          by_cases hpc : p = c
          · rw [if_pos hpc] at h
            subst hpc
            simp [ih cs rest h]
          · rw [if_neg hpc] at h
            cases h

theorem stripStart_prefix :
    ∀ (pat l : List Char), stripStart pat (pat ++ l) = some l := by
  intro pat
  induction pat with
  | nil => intro l; rfl
  | cons p ps ih => intro l; simp [stripStart, ih]

theorem takeWhile_append_stop {α : Type} (p : α → Bool) :
    ∀ (xs : List α) (b : α) (t : List α),
      (∀ a ∈ xs, p a = true) → p b = false →
      (xs ++ b :: t).takeWhile p = xs ∧ (xs ++ b :: t).dropWhile p = b :: t := by
  intro xs
  induction xs with
  | nil =>
      intro b t _ hb
      constructor <;> simp [List.takeWhile_cons, List.dropWhile_cons, hb]
  | cons x xs ih =>
      intro b t hall hb
      have hx : p x = true := hall x (by simp)
      obtain ⟨h1, h2⟩ := ih b t (fun a ha => hall a (by simp [ha])) hb
      constructor <;>
        simp [List.takeWhile_cons, List.dropWhile_cons, hx, h1, h2]

theorem all_takeWhile {α : Type} (p : α → Bool) :
    ∀ l : List α, (l.takeWhile p).all p = true := by
  intro l
  induction l with
  | nil => rfl
  | cons x xs ih =>
      cases hx : p x <;> simp [List.takeWhile_cons, hx, ih]

theorem charsStartWith_iff :
    ∀ (pat l : List Char), charsStartWith pat l = true ↔ ∃ t, l = pat ++ t := by
  intro pat
  induction pat with
  | nil => intro l; simp [charsStartWith]
  | cons p ps ih =>
      intro l
      cases l with
      | nil => simp [charsStartWith]
      | cons c cs =>
          simp only [charsStartWith, Bool.and_eq_true]
          constructor
          · rintro ⟨hpc, h⟩
            have hpc' : p = c := by simpa using hpc
            subst hpc'
            obtain ⟨t, rfl⟩ := (ih cs).mp h
            exact ⟨t, rfl⟩
          · rintro ⟨t, ht⟩
            injection ht with h1 h2
            subst h1
            exact ⟨by simp, (ih cs).mpr ⟨t, h2⟩⟩

theorem charsEndWith_iff (pat l : List Char) :
    charsEndWith pat l = true ↔ ∃ t, l = t ++ pat := by
  unfold charsEndWith
  rw [charsStartWith_iff]
  constructor
  · rintro ⟨t, ht⟩
    refine ⟨t.reverse, ?_⟩
    have hrr : l.reverse.reverse = (pat.reverse ++ t).reverse := by rw [ht]
    simpa [List.reverse_append] using hrr
  · rintro ⟨t, rfl⟩
    exact ⟨t.reverse, by simp [List.reverse_append]⟩

theorem isRepoChar_slash : isRepoChar '/' = false := by decide

theorem tail2_all_repo (cs : List Char) (hall : cs.all isRepoChar = true) :
    tail2 cs = true ↔ cs = [] := by
  cases cs with
  | nil => simp [tail2]
  | cons c rest =>
      have hc : isRepoChar c = true := by
        simp only [List.all_cons, Bool.and_eq_true] at hall
        exact hall.1
      constructor
      · intro h
        by_cases h' : c = '/'
        · subst h'
          rw [isRepoChar_slash] at hc
          cases hc
        · simp [tail2, h'] at h
      · intro h
        cases h

theorem tailMatch_all_repo (cs : List Char) (hall : cs.all isRepoChar = true) :
    tailMatch cs = true ↔ (cs = ['.', 'g', 'i', 't'] ∨ cs = []) := by
  constructor
  · intro h
    simp only [tailMatch, Bool.or_eq_true, Bool.and_eq_true] at h
    rcases h with ⟨hstart, htail⟩ | htail
    · left
      obtain ⟨t, rfl⟩ := (charsStartWith_iff _ _).mp hstart
      have hdrop : ((['.', 'g', 'i', 't'] : List Char) ++ t).drop 4 = t := rfl
      rw [hdrop] at htail
      have ht : t.all isRepoChar = true := by
        simp only [List.all_append, Bool.and_eq_true] at hall
        exact hall.2
      rw [(tail2_all_repo t ht).mp htail]
      simp
    · right
      exact (tail2_all_repo cs hall).mp htail
  · intro h
    rcases h with rfl | rfl <;> decide

theorem repoScan_sound :
    ∀ (cs acc r : List Char), repoScan acc cs = some r →
      ∃ consumed rest, r = acc ++ consumed ∧ cs = consumed ++ rest ∧
        consumed ≠ [] ∧ consumed.all isRepoChar = true ∧ tailMatch rest = true := by
  intro cs
  induction cs with
  | nil => intro acc r h; simp [repoScan] at h
  | cons c cs' ih =>
      intro acc r h
      simp only [repoScan] at h
      by_cases hc : isRepoChar c = true
      · by_cases ht : tailMatch cs' = true
        · rw [if_pos hc, if_pos ht] at h
          obtain rfl : acc ++ [c] = r := Option.some.inj h
          exact ⟨[c], cs', rfl, rfl, by simp, by simp [hc], ht⟩
        · rw [if_pos hc, if_neg ht] at h
          obtain ⟨consumed, rest, h1, h2, h3, h4, h5⟩ := ih (acc ++ [c]) r h
          refine ⟨c :: consumed, rest, ?_, by simp [h2], by simp, ?_, h5⟩
          · rw [h1, List.append_assoc]
            rfl
          · simp [List.all_cons, hc, h4]
      · rw [if_neg hc] at h
        cases h

theorem repoScan_all_repo :
    ∀ (cs acc : List Char), cs ≠ [] → cs.all isRepoChar = true →
      repoScan acc cs = some (acc ++ listStripGit cs) := by
  intro cs
  induction cs with
  | nil => intro acc h _; cases h rfl
  | cons c rest ih =>
      intro acc _ hall
      have hc : isRepoChar c = true := by
        simp only [List.all_cons, Bool.and_eq_true] at hall
        exact hall.1
      have hrest : rest.all isRepoChar = true := by
        simp only [List.all_cons, Bool.and_eq_true] at hall
        exact hall.2
      simp only [repoScan, if_pos hc]
      by_cases ht : tailMatch rest = true
      · rw [if_pos ht]
        rcases (tailMatch_all_repo rest hrest).mp ht with rfl | rfl
        · have hend : charsEndWith ['.', 'g', 'i', 't']
              (c :: ['.', 'g', 'i', 't']) = true :=
            (charsEndWith_iff _ _).mpr ⟨[c], rfl⟩
          have hs : listStripGit (c :: ['.', 'g', 'i', 't']) = [c] := by
            simp only [listStripGit]
            rw [if_pos ⟨by simp, hend⟩]
            simp
          rw [hs]
        · have hs : listStripGit [c] = [c] := by
            simp only [listStripGit]
            rw [if_neg (by simp)]
          rw [hs]
      · rw [if_neg ht]
        have hrne : rest ≠ [] := by
          intro hre
          subst hre
          exact ht (by decide)
        have hne_git : rest ≠ ['.', 'g', 'i', 't'] := by
          intro hre
          subst hre
          exact ht (by decide)
        rw [ih (acc ++ [c]) hrne hrest, List.append_assoc]
        have hstrip : listStripGit (c :: rest) = c :: listStripGit rest := by
          by_cases hcond : 4 < rest.length ∧
              charsEndWith ['.', 'g', 'i', 't'] rest = true
          · obtain ⟨hlen, hend⟩ := hcond
            obtain ⟨t, rfl⟩ := (charsEndWith_iff _ _).mp hend
            have hend' : charsEndWith ['.', 'g', 'i', 't']
                (c :: (t ++ ['.', 'g', 'i', 't'])) = true :=
              (charsEndWith_iff _ _).mpr ⟨c :: t, rfl⟩
            have hlentt : (t ++ ['.', 'g', 'i', 't']).length = t.length + 4 := by
              simp
            simp only [listStripGit]
            rw [if_pos ⟨by simp, hend'⟩, if_pos ⟨hlen, hend⟩]
            simp only [List.length_cons, hlentt]
            have h1 : t.length + 4 - 4 = t.length := by omega
            have h2 : t.length + 4 + 1 - 4 = t.length + 1 := by omega
            rw [h1, h2, List.take_succ_cons]
          · have hcond' : ¬(4 < (c :: rest).length ∧
                charsEndWith ['.', 'g', 'i', 't'] (c :: rest) = true) := by
              rintro ⟨hlen, hend⟩
              obtain ⟨t, hteq⟩ := (charsEndWith_iff _ _).mp hend
              cases t with
              | nil =>
                  have hlen4 := congrArg List.length hteq
                  simp at hlen4
                  simp [hlen4] at hlen
              | cons c' t' =>
                  injection hteq with h1 h2
                  apply hcond
                  constructor
                  · cases t' with
                    | nil => exact absurd h2 (by simpa using hne_git)
                    | cons _ _ => rw [h2]; simp
                  · exact (charsEndWith_iff _ _).mpr ⟨t', h2⟩
            simp only [listStripGit]
            rw [if_neg hcond', if_neg hcond]
        rw [hstrip]
        rfl

/-- Soundness of the extraction: a successful match decomposes the
locator per the accepted pattern — the literal head, a non-empty owner
over its class, a slash, a non-empty repository over its class, and a
remainder accepted by `(\.git)?(\/.*)?$`. -/
theorem extractOwnerRepo_sound (s o r : String)
    (h : extractOwnerRepo s = some (o, r)) :
    ∃ rest, s.data = locatorHead ++ (o.data ++ '/' :: (r.data ++ rest)) ∧
      o.data ≠ [] ∧ o.data.all isOwnerChar = true ∧
      r.data ≠ [] ∧ r.data.all isRepoChar = true ∧ tailMatch rest = true := by
  simp only [extractOwnerRepo] at h
  obtain ⟨⟨od, rd⟩, hec, hpair⟩ := Option.map_eq_some'.mp h
  obtain ⟨rfl, rfl⟩ : o = String.mk od ∧ r = String.mk rd := by
    injection hpair with h1 h2
    exact ⟨h1.symm, h2.symm⟩
  cases hstrip : stripStart locatorHead s.data with
  | none => simp [extractChars, hstrip] at hec
  | some rest0 =>
      simp only [extractChars, hstrip] at hec
      cases hdrop : rest0.dropWhile isOwnerChar with
      | nil =>
          rw [hdrop] at hec
          simp at hec
      | cons c rest2 =>
          rw [hdrop] at hec
          simp only [] at hec
          by_cases hcs : c = '/'
          · rw [if_pos hcs] at hec
            by_cases hemp : (rest0.takeWhile isOwnerChar).isEmpty = true
            · rw [if_pos hemp] at hec
              cases hec
            · rw [if_neg hemp] at hec
              obtain ⟨rd0, hscan, hpr⟩ := Option.map_eq_some'.mp hec
              obtain ⟨hod, hrd⟩ : rest0.takeWhile isOwnerChar = od ∧ rd0 = rd := by
                injection hpr with h1 h2
                exact ⟨h1, h2⟩
              obtain ⟨consumed, rest, hr1, hr2, hr3, hr4, hr5⟩ :=
                repoScan_sound rest2 [] rd0 hscan
              simp only [List.nil_append] at hr1
              refine ⟨rest, ?_, ?_, ?_, ?_, ?_, hr5⟩
              · rw [stripStart_sound locatorHead s.data rest0 hstrip]
                rw [← List.takeWhile_append_dropWhile (p := isOwnerChar) (l := rest0),
                  hdrop, hod, hcs]
                simp only [List.cons_append, List.append_assoc]
                rw [hr2, ← hr1, hrd]
              · intro hempty
                apply hemp
                have h0 : List.takeWhile isOwnerChar rest0 = [] := by
                  rw [hod]
                  exact hempty
                rw [h0]
                rfl
              · rw [← hod]
                exact all_takeWhile isOwnerChar rest0
              · rw [← hrd, hr1]
                exact hr3
              · rw [← hrd, hr1]
                exact hr4
          · rw [if_neg hcs] at hec
            cases hec

/-- Completeness on canonical locators: extraction of
`https://github.com/owner/repo` succeeds and returns the owner unchanged
and the repository with one trailing `.git` stripped (when a non-empty
stem remains) — the lazy group 2 stops at the earliest point where
`(\.git)?(\/.*)?$` accepts the remainder. -/
theorem extract_canonical (o r : String)
    (ho1 : o.data ≠ []) (ho2 : o.data.all isOwnerChar = true)
    (hr1 : r.data ≠ []) (hr2 : r.data.all isRepoChar = true) :
    extractOwnerRepo (canonicalLocator o r) = some (o, stripDotGit r) := by
  have hdata : (canonicalLocator o r).data =
      locatorHead ++ (o.data ++ '/' :: r.data) := by
    simp only [canonicalLocator, strData_append, List.append_assoc]
    rfl
  obtain ⟨htake, hdrop⟩ := takeWhile_append_stop isOwnerChar o.data '/' r.data
    (fun a ha => List.all_eq_true.mp ho2 a ha) (by decide)
  have hoe : (o.data.isEmpty = true) = False := by
    cases hodata : o.data with
    | nil => exact absurd hodata ho1
    | cons _ _ => simp
  simp only [extractOwnerRepo, extractChars, hdata, stripStart_prefix, htake,
    hdrop, hoe, if_pos rfl, if_false,
    repoScan_all_repo r.data [] hr1 hr2, Option.map_some', List.nil_append]
  rfl

/-! ## C3 — locator extraction: determinism, idempotence, no network on
invalid input -/

/-- C3 counterexample.  Extraction is not idempotent: the locator
`https://github.com/o/a.git.git` extracts to repository `a.git`, but the
canonical locator of that extraction extracts to `a` — the optional
`.git` group strips one more suffix on re-extraction. -/
theorem extract_not_idempotent :
    extractOwnerRepo "https://github.com/o/a.git.git" = some ("o", "a.git") ∧
    canonicalLocator "o" "a.git" = "https://github.com/o/a.git" ∧
    extractOwnerRepo "https://github.com/o/a.git" = some ("o", "a") ∧
    ("a" : String) ≠ "a.git" := by
  refine ⟨by decide, rfl, by decide, by decide⟩

/-- C3 amended.  Extraction is a deterministic function of the locator
string that decomposes it per the accepted pattern; for every
non-matching string the operation completes with the invalid-input
message before any network request (the start step returns no parse, so
no call is issued, and only the documented fields change); extraction is
idempotent up to stripping one trailing `.git`: re-extracting from the
canonical locator of an extracted pair yields the same owner and
`stripDotGit` of the repository (so idempotence as claimed fails exactly
when the extracted repository itself ends in a proper `.git` suffix). -/
theorem extract_deterministic_amended :
    (∀ (s o r o' r' : String), extractOwnerRepo s = some (o, r) →
      extractOwnerRepo s = some (o', r') → o = o' ∧ r = r') ∧
    (∀ (s o r : String), extractOwnerRepo s = some (o, r) →
      ∃ rest, s.data = locatorHead ++ (o.data ++ '/' :: (r.data ++ rest)) ∧
        o.data ≠ [] ∧ o.data.all isOwnerChar = true ∧
        r.data ≠ [] ∧ r.data.all isRepoChar = true ∧ tailMatch rest = true) ∧
    (∀ (s o r : String), extractOwnerRepo s = some (o, r) →
      extractOwnerRepo (canonicalLocator o r) = some (o, stripDotGit r)) ∧
    (∀ (st : AppState) (url : String), extractOwnerRepo url = none →
      fetchRepoStart st url =
        ({ st with isLoading := false, errorMessage := some invalidUrlMsg,
                   chatMessages := [], selectedFilePath := none,
                   currentFileContent := none, activeTab := Tab.aiAssistant,
                   repoFiles := [], showRepoInputModal := true }, none)) := by
  refine ⟨?_, ?_, ?_, ?_⟩
  · intro s o r o' r' h h'
    rw [h] at h'
    injection h' with hp
    exact ⟨congrArg Prod.fst hp, congrArg Prod.snd hp⟩
  · intro s o r h
    exact extractOwnerRepo_sound s o r h
  · intro s o r h
    obtain ⟨rest, -, ho1, ho2, hr1, hr2, -⟩ := extractOwnerRepo_sound s o r h
    exact extract_canonical o r ho1 ho2 hr1 hr2
  · intro st url h
    simp [fetchRepoStart, h]

/-- Witness for C3 at concrete locators: a matching one and a
non-matching one. -/
theorem extract_deterministic_amended_witness :
    (("foo" : String) = "foo" ∧ ("bar" : String) = "bar") ∧
    (∃ rest, ("https://github.com/foo/bar").data =
      locatorHead ++ (("foo" : String).data ++ '/' ::
        (("bar" : String).data ++ rest)) ∧
      ("foo" : String).data ≠ [] ∧
      ("foo" : String).data.all isOwnerChar = true ∧
      ("bar" : String).data ≠ [] ∧
      ("bar" : String).data.all isRepoChar = true ∧ tailMatch rest = true) ∧
    extractOwnerRepo (canonicalLocator "foo" "bar") =
      some ("foo", stripDotGit "bar") ∧
    fetchRepoStart emptyState "not-a-url" =
      ({ emptyState with isLoading := false,
                         errorMessage := some invalidUrlMsg,
                         chatMessages := [], selectedFilePath := none,
                         currentFileContent := none,
                         activeTab := Tab.aiAssistant,
                         repoFiles := [], showRepoInputModal := true }, none) :=
  ⟨extract_deterministic_amended.1 "https://github.com/foo/bar" "foo" "bar"
      "foo" "bar" (by decide) (by decide),
    extract_deterministic_amended.2.1 "https://github.com/foo/bar" "foo" "bar"
      (by decide),
    extract_deterministic_amended.2.2.1 "https://github.com/foo/bar" "foo" "bar"
      (by decide),
    extract_deterministic_amended.2.2.2 emptyState "not-a-url" (by decide)⟩

/-! ## C1 — supersession of overlapping repository fetches -/

/-- C1.  The code violates the supersession requirement: with
`fetchRepo(A)` then `fetchRepo(B)` issued before A resolves, and A's
network result applied after B's, the final tree is A's (while owner and
name are B's) — the claim demands that the final state reflect B
regardless of completion order.  `fetchRepo` has no generation counter
and aborts nothing, so the stale completion writes unconditionally. -/
theorem fetchRepo_supersession_violated :
    staleRaceFinal.repoFiles = filesA ∧
    staleRaceFinal.repoOwner = "bob" ∧
    staleRaceFinal.repoName = "repob" ∧
    filesA.map RepoFile.path ≠ filesB.map RepoFile.path := by
  exact ⟨rfl, rfl, rfl, by decide⟩

end GCA
